import Mathlib

/-!
Verification of `skfuzzy/control/fuzzyvariable.py`.

A shallow embedding of the fuzzy-variable core: the `FuzzyVariableTerm` and
`FuzzyVariable` data model, term registration (`__setitem__`), term lookup
(`__getitem__`), the negation view (`_NotGenerator.__getitem__`), the
crisp-value setter and getter (`crisp_value`), the aggregation step
(`_find_crisp_value`) and the `automf` convenience builder.

Numbers are embedded as rationals.  The collaborators that live in this
repository but outside the file under study (`skfuzzy.defuzz`,
`skfuzzy.interp_membership`, `skfuzzy.membership.trimf`) are modelled from the
specification; each such definition carries a doc comment starting with
`Modelled from the spec:`.

In the source every failure is a raised `ValueError`; following the spec's
error taxonomy the embedding distinguishes the raise sites by an error kind.
Stateful operations return the final state of the variable together with the
result or the raised error, mirroring the fact that in Python the object
survives a raised exception with whatever mutations already happened.
-/

attribute [local semireducible] Rat.add Rat.mul Rat.sub Rat.inv

/-- Boundary tolerance of the membership range check (`1e-6` in the source). -/
def eps : ℚ := 1 / 1000000

/-- Error kinds of the spec's taxonomy.  In the source all of these are raised
as `ValueError`; the kind records which check fired.  `LookupError` carries the
enumerated-options fragment of its message (the `options` string the source
builds and interpolates into the message). -/
inductive Err where
  | StateError
  | ShapeMismatchError
  | RangeError
  | ValidationError
  | LookupError (options : String)
  | ConfigError
  | DegenerateResultError
  deriving DecidableEq

/-- Term data, `FuzzyVariableTerm`: label, membership function (sampled curve), the
parent binding and the mutable membership degree.  The Python attribute
`parent_variable` is an object reference (`None` until registration binds it);
the embedding models it as the flag "has a parent".  `membership_value` is
`None`/unset until the inference engine or the crisp-value setter assigns it. -/
structure FuzzyVariableTerm where
  label : String
  mf : List ℚ
  parent_variable : Bool
  membership_value : Option ℚ
  deriving DecidableEq

/-- The two shapes `__setitem__` accepts: a raw curve (any array-like, wrapped
into a fresh term) or a pre-built `FuzzyVariableTerm`. -/
inductive CurveOrTerm where
  | curve (mf : List ℚ)
  | term (t : FuzzyVariableTerm)
  deriving DecidableEq

/-- Variable data, `FuzzyVariable`: the universe grid (source attribute `universe`, renamed
`univ` because `universe` is a Lean keyword), its label, the configured
defuzzification strategy name, the insertion-ordered term mapping (modelled as
a list with unique labels, the `OrderedDict`), and the lock flag
`_crisp_value_accessed`. -/
structure FuzzyVariable where
  univ : List ℚ
  label : String
  defuzzify_method : String
  terms : List FuzzyVariableTerm
  crisp_value_accessed : Bool
  deriving DecidableEq

/-- Construction, `FuzzyVariable.__init__`: stores the universe, label and the
defuzzification method name (the source performs no validation of the method
name at construction; its default is `"centroid"`), with an empty term mapping
and the lock flag down. -/
def FuzzyVariable.init (univ : List ℚ) (label defuzzify_method : String) :
    FuzzyVariable :=
  { univ := univ
    label := label
    defuzzify_method := defuzzify_method
    terms := []
    crisp_value_accessed := false }

/-- Lookup in the ordered term mapping: first (and by uniqueness only) term
carrying the label. -/
def termsLookup (ts : List FuzzyVariableTerm) (key : String) :
    Option FuzzyVariableTerm :=
  ts.find? (fun t => t.label == key)

/-- `OrderedDict` assignment: overwriting an existing key keeps its position,
a fresh key is appended at the end. -/
def termsInsert (ts : List FuzzyVariableTerm) (key : String)
    (t : FuzzyVariableTerm) : List FuzzyVariableTerm :=
  if ts.any (fun u => u.label == key) then
    ts.map (fun u => if u.label == key then t else u)
  else
    ts ++ [t]

/-- The range check of `__setitem__`:
`mf.max() > 1. + 1e-6 or mf.min() < 0 - 1e-6`.  Stated pointwise, which agrees
with the max/min formulation on every nonempty curve (`numpy` rejects the
empty case, which is unreachable for a nonempty universe because the shape
check runs first). -/
def outOfRange (mf : List ℚ) : Prop :=
  (∃ s ∈ mf, 1 + eps < s) ∨ (∃ s ∈ mf, s < 0 - eps)

instance : DecidablePred outOfRange := fun mf => by
  unfold outOfRange
  infer_instance

/-- Registration, `FuzzyVariable.__setitem__`.  Order of the source checks: label/parent
validation of a pre-built term (or wrapping of a raw curve), then the lock
flag, then the shape check, then the range check; only then is the term's
parent bound and the entry inserted.  Returns the final state and the bound
term (Python mutates `item` in place and the caller keeps the reference). -/
def setitem (v : FuzzyVariable) (key : String) (item : CurveOrTerm) :
    FuzzyVariable × Except Err FuzzyVariableTerm :=
  let validated : Except Err FuzzyVariableTerm :=
    match item with
    | .term t =>
      if t.label ≠ key then .error .ValidationError
      else if t.parent_variable then .error .ValidationError
      else .ok t
    | .curve mf =>
      .ok { label := key, mf := mf, parent_variable := false,
            membership_value := none }
  match validated with
  | .error e => (v, .error e)
  | .ok t =>
    if v.crisp_value_accessed then (v, .error .StateError)
    else if t.mf.length ≠ v.univ.length then (v, .error .ShapeMismatchError)
    else if outOfRange t.mf then (v, .error .RangeError)
    else
      let bound : FuzzyVariableTerm := { t with parent_variable := true }
      ({ v with terms := termsInsert v.terms key bound }, .ok bound)

/-- The apostrophe character used by the source when quoting labels in the
lookup error message. -/
def squo : String := ⟨[Char.ofNat 39]⟩

/-- The option-enumerating loop of `__getitem__`: position `i0 = len - 1`
gets a trailing period, position `i1 = len - 2` gets `", or "`, every other
position gets `"; "`.  The indices are integers because for fewer than two
labels the Python values go negative. -/
def optionsAux (i0 i1 : Int) : Int → List String → String
  | _, [] => ""
  | i, k :: rest =>
    (if i = i1 then squo ++ k ++ squo ++ ", or "
     else if i = i0 then squo ++ k ++ squo ++ "."
     else squo ++ k ++ squo ++ "; ") ++ optionsAux i0 i1 (i + 1) rest

/-- The options fragment of the `__getitem__` error message, built over the
registered labels in insertion order. -/
def buildOptions (keys : List String) : String :=
  optionsAux ((keys.length : Int) - 1) ((keys.length : Int) - 2) 0 keys

/-- Lookup, `FuzzyVariable.__getitem__`: return the registered term, or fail with the
informative lookup error.  The source interpolates `buildOptions` into
`"Membership function {0} does not exist for {1} {2}. Available options: {3}"`;
the embedding records the enumerated-options fragment. -/
def getitem (v : FuzzyVariable) (key : String) : Except Err FuzzyVariableTerm :=
  match termsLookup v.terms key with
  | some t => .ok t
  | none => .error (.LookupError (buildOptions (v.terms.map (fun t => t.label))))

/-- Modelled from the spec: `skfuzzy.interp_membership` (imported by the file
under study but not part of it).  Piecewise-linear interpolation of the
sampled curve `ys` over the grid `xs` at query point `x`; a query outside the
grid clamps to the boundary sample. -/
def interp_membership : List ℚ → List ℚ → ℚ → ℚ
  | [], _, _ => 0
  | [_], ys, _ =>
    match ys with
    | [] => 0
    | y0 :: _ => y0
  | x0 :: x1 :: xs, ys, x =>
    match ys with
    | y0 :: y1 :: ys1 =>
      if x ≤ x0 then y0
      else if x ≤ x1 then y0 + (y1 - y0) * (x - x0) / (x1 - x0)
      else interp_membership (x1 :: xs) (y1 :: ys1) x
    | _ => 0

/-- The `crisp_value` setter: with no terms registered fail; otherwise assign
every term's `membership_value` by interpolating its curve at the crisp value,
and raise the lock flag. -/
def crisp_value_set (v : FuzzyVariable) (value : ℚ) :
    FuzzyVariable × Except Err Unit :=
  if v.terms.length = 0 then (v, .error .StateError)
  else
    ({ v with
        terms := v.terms.map (fun adj =>
          { adj with
            membership_value := some (interp_membership v.univ adj.mf value) })
        crisp_value_accessed := true },
     .ok ())

/-- One step of the `_find_crisp_value` loop: for a term whose
`membership_value` is defined, form the cut curve `np.minimum(cut, term.mf)`,
fold it into the output with `np.maximum` and record it in the `cut_mfs`
collection (label and cut curve); a term with unset degree is skipped. -/
def findStep (acc : List ℚ × List (String × List ℚ))
    (t : FuzzyVariableTerm) : List ℚ × List (String × List ℚ) :=
  match t.membership_value with
  | none => acc
  | some cut =>
    let cutmf := t.mf.map (fun m => min cut m)
    (List.zipWith max acc.1 cutmf, acc.2 ++ [(t.label, cutmf)])

/-- Aggregation, `FuzzyVariable._find_crisp_value`: fail with no terms,
otherwise fold the per-term step over the terms, starting from
`np.zeros_like(universe)` and the empty cut collection. -/
def find_crisp_value (v : FuzzyVariable) :
    Except Err (List ℚ × List (String × List ℚ)) :=
  if v.terms.length = 0 then .error .StateError
  else
    .ok (v.terms.foldl findStep (v.univ.map (fun _ => (0 : ℚ)), []))

/-- The sample values attaining the curve's maximum, with their universe
coordinates, used by the maximum-based defuzzification strategies. -/
def maxPoints (xs mf : List ℚ) : List ℚ :=
  let m := mf.foldl max (mf.headD 0)
  (xs.zip mf).filterMap (fun p => if p.2 = m then some p.1 else none)

/-- The first universe sample at which the running area under the curve
reaches the given half-area threshold, used by the bisector strategy. -/
def bisectorPoint : List (ℚ × ℚ) → ℚ → ℚ → ℚ
  | [], _, _ => 0
  | (u, m) :: rest, acc, half =>
    if half ≤ acc + m then u
    else
      match rest with
      | [] => u
      | _ :: _ => bisectorPoint rest (acc + m) half

/-- Modelled from the spec: `skfuzzy.defuzz` (imported by the file under
study but not part of it).  Collapses a curve sampled over the universe to a
scalar per the configured strategy: `centroid` is the area-weighted mean
position with a degenerate-denominator error when the total area is zero;
`bisector` the area-halving point; `mom`/`som`/`lom` the mean, smallest and
largest coordinate among the samples attaining the maximum.  An unrecognized
strategy name is a configuration error. -/
def defuzz (xs mf : List ℚ) (method : String) : Except Err ℚ :=
  if method = "centroid" then
    let area := mf.sum
    if area = 0 then .error .DegenerateResultError
    else .ok ((List.zipWith (fun u m => u * m) xs mf).sum / area)
  else if method = "bisector" then
    let area := mf.sum
    if area = 0 then .error .DegenerateResultError
    else .ok (bisectorPoint (xs.zip mf) 0 (area / 2))
  else if method = "mom" then
    let pts := maxPoints xs mf
    if pts = [] then .error .DegenerateResultError
    else .ok (pts.sum / (pts.length : ℚ))
  else if method = "som" then
    let pts := maxPoints xs mf
    if pts = [] then .error .DegenerateResultError
    else .ok (pts.headD 0)
  else if method = "lom" then
    let pts := maxPoints xs mf
    if pts = [] then .error .DegenerateResultError
    else .ok (pts.getLastD 0)
  else .error .ConfigError

/-- The `crisp_value` getter: aggregate with `_find_crisp_value`; fail when
no term contributed a cut curve; otherwise raise the lock flag and hand the
aggregated curve to the defuzzifier.  The lock flag is raised before `defuzz`
runs, so a failure inside the defuzzifier leaves the variable locked. -/
def crisp_value_get (v : FuzzyVariable) : FuzzyVariable × Except Err ℚ :=
  match find_crisp_value v with
  | .error e => (v, .error e)
  | .ok (output_mf, cut_mfs) =>
    if cut_mfs.length = 0 then (v, .error .StateError)
    else
      let v1 := { v with crisp_value_accessed := true }
      (v1, defuzz v.univ output_mf v.defuzzify_method)

/-- Negation view, `_NotGenerator.__getitem__` (`var.not_[key]`): return the cached
`"NOT-"`-prefixed term when present; otherwise look the positive term up,
build the complement term (curve `1 - mf`; degree `1 - membership_value` when
the positive degree is defined), and register it through `__setitem__`. -/
def not_getitem (v : FuzzyVariable) (key : String) :
    FuzzyVariable × Except Err FuzzyVariableTerm :=
  let lbl := "NOT-" ++ key
  if (termsLookup v.terms lbl).isSome then
    (v, getitem v lbl)
  else
    match getitem v key with
    | .error e => (v, .error e)
    | .ok posterm =>
      let negterm : FuzzyVariableTerm :=
        { label := lbl
          mf := posterm.mf.map (fun m => 1 - m)
          parent_variable := false
          membership_value :=
            match posterm.membership_value with
            | none => none
            | some m => some (1 - m) }
      setitem v lbl (.term negterm)

/-- Direct degree assignment `var.terms[key].membership_value = d`, the write
the external inference engine performs on selected terms (spec section 2). -/
def setDegree (v : FuzzyVariable) (key : String) (d : ℚ) : FuzzyVariable :=
  { v with terms := v.terms.map (fun t =>
      if t.label = key then { t with membership_value := some d } else t) }

/-- Modelled from the spec: `skfuzzy.membership.trimf` (imported by the file
under study but not part of it).  Triangular membership curve with feet
`abc.1` and `abc.2.2` and peak `abc.2.1`, sampled over the grid; a degenerate
zero-width shoulder follows the rational convention `x / 0 = 0`. -/
def trimf (xs : List ℚ) (abc : ℚ × ℚ × ℚ) : List ℚ :=
  xs.map (fun x =>
    max 0 (min ((x - abc.1) / (abc.2.1 - abc.1))
               ((abc.2.2 - x) / (abc.2.2 - abc.2.1))))

/-- Default term names of `automf` for `variable_type = 'quality'`. -/
def qualityNames : List String :=
  ["dismal", "poor", "mediocre", "average", "decent", "good", "excellent"]

/-- Default term names of `automf` for the quantitative variable type. -/
def quantNames : List String :=
  ["lowest", "lower", "low", "average", "high", "higher", "highest"]

/-- Evenly spaced samples, `np.linspace lo hi n`: `n` samples from `lo` to `hi`. -/
def linspace (lo hi : ℚ) (n : Nat) : List ℚ :=
  (List.range n).map (fun i => lo + (hi - lo) * i / ((n : ℚ) - 1))

/-- Minimum of the universe, `universe.min()`. -/
def qmin (l : List ℚ) : ℚ := l.foldl min (l.headD 0)

/-- Maximum of the universe, `universe.max()`. -/
def qmax (l : List ℚ) : ℚ := l.foldl max (l.headD 0)

/-- One iteration of the `automf` repopulation loop,
`self[name] = trimf(self.universe, abc)`: skipped when an earlier iteration
already raised (a Python exception aborts the loop, and the fold keeps the
state and error it aborted with). -/
def automfReg (acc : FuzzyVariable × Except Err Unit)
    (p : String × (ℚ × ℚ × ℚ)) : FuzzyVariable × Except Err Unit :=
  match acc.2 with
  | .error _ => acc
  | .ok _ =>
    let r := setitem acc.1 p.1 (.curve (trimf acc.1.univ p.2))
    (r.1, r.2.map (fun _ => ()))

/-- The name-resolution prelude of `automf`: an explicit list of names must
have odd length; otherwise `number` must be 3, 5 or 7 and the names are
sliced out of the standard seven, `names[1:6:2]` / `names[2:5]` /
`names[1:6]`.  The source compares `variable_type.lower()` with `'quality'`;
the embedding compares with the lower-case literal. -/
def automfNames (number : Nat) (variable_type : String)
    (names : Option (List String)) : Except Err (Nat × List String) :=
  match names with
  | some ns =>
    if ns.length % 2 ≠ 1 then .error .ConfigError else .ok (ns.length, ns)
  | none =>
    if number ≠ 3 ∧ number ≠ 5 ∧ number ≠ 7 then .error .ConfigError
    else
      let base := if variable_type = "quality" then qualityNames else quantNames
      let ns :=
        if number = 3 then
          if variable_type = "quality" then
            [base.getD 1 "", base.getD 3 "", base.getD 5 ""]
          else (base.drop 2).take 3
        else if number = 5 then (base.drop 1).take 5
        else base
      .ok (number, ns)

/-- Convenience builder, `FuzzyVariable.automf`: resolve the term names,
optionally invert them,
compute the triangle parameters from the universe limits, **clear the
existing term mapping**, and re-register one triangular term per name through
`__setitem__`; a raised error aborts the loop. -/
def automf (v : FuzzyVariable) (number : Nat) (variable_type : String)
    (names : Option (List String)) (invert : Bool) :
    FuzzyVariable × Except Err Unit :=
  match automfNames number variable_type names with
  | .error e => (v, .error e)
  | .ok (number, ns0) =>
    let ns := if invert then ns0.reverse else ns0
    let lo := qmin v.univ
    let hi := qmax v.univ
    let w := (hi - lo) / (((number : ℚ) - 1) / 2)
    let centers := linspace lo hi number
    let abcs := centers.map (fun c => (c - w / 2, c, c + w / 2))
    let cleared := { v with terms := [] }
    (ns.zip abcs).foldl automfReg (cleared, .ok ())

/-- The variable states reachable through the core: freshly constructed, then
closed under registration, crisp reads and writes, negation lookups, external
degree assignment and `automf`. -/
inductive Reachable : FuzzyVariable → Prop where
  | init (u : List ℚ) (l m : String) : Reachable (FuzzyVariable.init u l m)
  | registration {v} (key : String) (item : CurveOrTerm) :
      Reachable v → Reachable (setitem v key item).1
  | read {v} : Reachable v → Reachable (crisp_value_get v).1
  | write {v} (x : ℚ) : Reachable v → Reachable (crisp_value_set v x).1
  | negation {v} (key : String) : Reachable v → Reachable (not_getitem v key).1
  | degreeSet {v} (key : String) (d : ℚ) :
      Reachable v → Reachable (setDegree v key d)
  | auto {v} (number : Nat) (ty : String) (ns : Option (List String))
      (inv : Bool) : Reachable v → Reachable (automf v number ty ns inv).1

/-- Follows the claim's words (spec 4.2): labels joined with `"; "`, with
`", or "` before the last label and a trailing period. -/
def specOptions : List String → String
  | [] => ""
  | [l] => squo ++ l ++ squo ++ "."
  | [l1, l2] => squo ++ l1 ++ squo ++ ", or " ++ (squo ++ l2 ++ squo ++ ".")
  | l :: rest => squo ++ l ++ squo ++ "; " ++ specOptions rest

/-- Follows the claim's words (spec 4.5, aggregation): at universe sample
`i`, the cut values `min(degree, curve)` of exactly those terms whose degree
is defined; terms with unset degree contribute nothing. -/
def specCutsAt (v : FuzzyVariable) (i : Nat) : List ℚ :=
  v.terms.filterMap
    (fun t => t.membership_value.map (fun c => min c (t.mf.getD i 0)))

/-! ### Helper lemmas about registration -/

theorem setitem_locked_curve (v : FuzzyVariable) (key : String) (mf : List ℚ)
    (hv : v.crisp_value_accessed = true) :
    setitem v key (.curve mf) = (v, .error .StateError) := by
  simp [setitem, hv]

theorem setitem_locked_valid_term (v : FuzzyVariable) (key : String)
    (t : FuzzyVariableTerm) (hv : v.crisp_value_accessed = true)
    (hl : t.label = key) (hp : t.parent_variable = false) :
    setitem v key (.term t) = (v, .error .StateError) := by
  simp [setitem, hv, hl, hp]

theorem setitem_invalid_term (v : FuzzyVariable) (key : String)
    (t : FuzzyVariableTerm) (h : t.label ≠ key ∨ t.parent_variable = true) :
    setitem v key (.term t) = (v, .error .ValidationError) := by
  rcases h with h | h
  · simp [setitem, h]
  · by_cases hl : t.label = key <;> simp [setitem, hl, h]

theorem setitem_spec (v : FuzzyVariable) (key : String) (item : CurveOrTerm) :
    ((setitem v key item).1 = v ∧ ∃ e, (setitem v key item).2 = .error e) ∨
    (∃ t, (setitem v key item).2 = .ok t ∧
      (setitem v key item).1 = { v with terms := termsInsert v.terms key t } ∧
      t.parent_variable = true ∧ t.label = key ∧ ¬ outOfRange t.mf ∧
      t.mf.length = v.univ.length ∧ v.crisp_value_accessed = false) := by
  have base : ∀ (t0 : FuzzyVariableTerm), t0.label = key →
      (∀ w : FuzzyVariable × Except Err FuzzyVariableTerm,
        w = (if v.crisp_value_accessed then (v, .error .StateError)
          else if t0.mf.length ≠ v.univ.length then
            (v, .error .ShapeMismatchError)
          else if outOfRange t0.mf then (v, .error .RangeError)
          else
            ({ v with terms := termsInsert v.terms key ({ t0 with parent_variable := true }) }, .ok { t0 with parent_variable := true })) →
        (w.1 = v ∧ ∃ e, w.2 = .error e) ∨
        (∃ t, w.2 = .ok t ∧
          w.1 = { v with terms := termsInsert v.terms key t } ∧
          t.parent_variable = true ∧ t.label = key ∧ ¬ outOfRange t.mf ∧
          t.mf.length = v.univ.length ∧ v.crisp_value_accessed = false)) := by
    intro t0 hl w hw
    by_cases hlock : v.crisp_value_accessed = true
    · left
      simp [hw, hlock]
    · by_cases hshape : t0.mf.length = v.univ.length
      · by_cases hrange : outOfRange t0.mf
        · left
          simp [hw, hlock, hshape, hrange]
        · right
          refine ⟨{ t0 with parent_variable := true }, ?_⟩
          simp [hw, hlock, hshape, hrange, hl]
      · left
        simp [hw, hlock, hshape]
  cases item with
  | curve mf =>
    exact base ({ label := key, mf := mf, parent_variable := false, membership_value := none }) rfl _ rfl
  | term t0 =>
    by_cases h1 : t0.label = key
    · by_cases h2 : t0.parent_variable = true
      · left
        rw [setitem_invalid_term v key t0 (Or.inr h2)]
        exact ⟨rfl, _, rfl⟩
      · have : setitem v key (.term t0) =
            (if v.crisp_value_accessed then (v, .error .StateError)
              else if t0.mf.length ≠ v.univ.length then
                (v, .error .ShapeMismatchError)
              else if outOfRange t0.mf then (v, .error .RangeError)
              else
                ({ v with terms := termsInsert v.terms key ({ t0 with parent_variable := true }) }, .ok { t0 with parent_variable := true })) := by
          simp [setitem, h1, h2]
        exact base t0 h1 _ this
    · left
      rw [setitem_invalid_term v key t0 (Or.inl h1)]
      exact ⟨rfl, _, rfl⟩

theorem setitem_error_fst (v : FuzzyVariable) (key : String)
    (item : CurveOrTerm) (e : Err)
    (h : (setitem v key item).2 = .error e) : (setitem v key item).1 = v := by
  rcases setitem_spec v key item with ⟨h1, _⟩ | ⟨t, ht, _⟩
  · exact h1
  · rw [ht] at h
    exact absurd h (by simp)

theorem setitem_ok (v : FuzzyVariable) (key : String) (item : CurveOrTerm)
    (t : FuzzyVariableTerm) (h : (setitem v key item).2 = .ok t) :
    (setitem v key item).1 = { v with terms := termsInsert v.terms key t } ∧
    t.parent_variable = true ∧ t.label = key ∧ ¬ outOfRange t.mf ∧
    t.mf.length = v.univ.length ∧ v.crisp_value_accessed = false := by
  rcases setitem_spec v key item with ⟨_, e, he⟩ | ⟨t1, ht1, hrest⟩
  · rw [he] at h
    exact absurd h (by simp)
  · rw [ht1] at h
    obtain rfl : t1 = t := by simpa using h
    exact hrest

theorem automfReg_foldl_error (l : List (String × (ℚ × ℚ × ℚ)))
    (s : FuzzyVariable) (e : Err) :
    l.foldl automfReg (s, .error e) = (s, .error e) := by
  induction l with
  | nil => rfl
  | cons p rest ih => simpa [automfReg] using ih

/-- Claim C2 (amended): once the lock flag is up, every registration attempt
fails and leaves the variable unchanged; the error is `StateError` for a raw
curve and for a pre-built term passing the label/parent validation, while a
pre-built term failing that validation fails with `ValidationError` (the
validation runs before the lock check). -/
theorem claim_C2 (v : FuzzyVariable) (key : String) (item : CurveOrTerm)
    (hv : v.crisp_value_accessed = true) :
    (setitem v key item).1 = v ∧
    (∀ mf, item = .curve mf → (setitem v key item).2 = .error .StateError) ∧
    (∀ t, item = .term t → t.label = key → t.parent_variable = false →
      (setitem v key item).2 = .error .StateError) ∧
    (∀ t, item = .term t → (t.label ≠ key ∨ t.parent_variable = true) →
      (setitem v key item).2 = .error .ValidationError) := by
  refine ⟨?_, ?_, ?_, ?_⟩
  · rcases setitem_spec v key item with ⟨h, _⟩ | ⟨t, _, _, _, _, _, _, hfl⟩
    · exact h
    · simp [hv] at hfl
  · intro mf h
    subst h
    rw [setitem_locked_curve v key mf hv]
  · intro t h hl hp
    subst h
    rw [setitem_locked_valid_term v key t hv hl hp]
  · intro t h hor
    subst h
    rw [setitem_invalid_term v key t hor]

/-- Claim C2, witness: a concrete locked variable rejects a raw-curve
registration with `StateError` and is left unchanged. -/
theorem claim_C2_witness :
    (setitem ⟨[0, 1], "v", "centroid", [], true⟩ "a" (.curve [0, 1])).1 =
      ⟨[0, 1], "v", "centroid", [], true⟩ ∧
    (setitem ⟨[0, 1], "v", "centroid", [], true⟩ "a" (.curve [0, 1])).2 =
      .error .StateError :=
  ⟨(claim_C2 _ _ _ rfl).1, (claim_C2 _ _ _ rfl).2.1 [0, 1] rfl⟩

/-- Claim C2, counterexample to the claim as stated: on a locked variable, a
pre-built term whose label does not match the registration key fails with
`ValidationError`, not `StateError`. -/
theorem claim_C2_counterexample :
    (setitem ⟨[0, 1], "w", "centroid", [], true⟩ "y"
      (.term ⟨"x", [0, 1], false, none⟩)).2 = .error .ValidationError ∧
    Err.ValidationError ≠ Err.StateError :=
  ⟨rfl, by decide⟩

/-- Claim C10: on a locked variable with registered terms, `automf` first
replaces the term mapping with an empty one and then fails with `StateError`
while registering the first generated term, so the previously registered
terms are lost. -/
theorem claim_C10 (v : FuzzyVariable) (hv : v.crisp_value_accessed = true)
    (hts : v.terms ≠ []) :
    automf v 3 "quality" none false =
      ({ v with terms := [] }, .error .StateError) := by
  have hcl : ({ v with terms := [] } : FuzzyVariable).crisp_value_accessed =
      true := hv
  have h1 : ∀ mf, setitem { v with terms := [] } "poor" (.curve mf) =
      ({ v with terms := [] }, .error .StateError) := fun mf =>
    setitem_locked_curve _ _ _ hcl
  simp [automf, automfNames, automfReg, qualityNames, linspace,
    List.range_succ, h1, automfReg_foldl_error, Except.map]

/-- Claim C10, witness: a concrete locked variable with one term ends up with
an empty term mapping and a `StateError` after `automf`. -/
theorem claim_C10_witness :
    automf ⟨[0, 1], "v", "centroid", [⟨"a", [0, 1], true, none⟩], true⟩
        3 "quality" none false =
      (⟨[0, 1], "v", "centroid", [], true⟩, .error .StateError) :=
  claim_C10 _ rfl (by decide)

theorem not_outOfRange_iff (mf : List ℚ) :
    ¬ outOfRange mf ↔ ∀ s ∈ mf, 0 - eps ≤ s ∧ s ≤ 1 + eps := by
  unfold outOfRange
  push_neg
  constructor
  · rintro ⟨h1, h2⟩ s hs
    exact ⟨h2 s hs, h1 s hs⟩
  · intro h
    exact ⟨fun s hs => (h s hs).2, fun s hs => (h s hs).1⟩

theorem termsInsert_mem (ts : List FuzzyVariableTerm) (key : String)
    (t u : FuzzyVariableTerm) (hu : u ∈ termsInsert ts key t) :
    u ∈ ts ∨ u = t := by
  unfold termsInsert at hu
  split at hu
  · rcases List.mem_map.mp hu with ⟨w, hw, hwe⟩
    split at hwe
    · exact Or.inr hwe.symm
    · exact Or.inl (hwe ▸ hw)
  · rcases List.mem_append.mp hu with h | h
    · exact Or.inl h
    · exact Or.inr (List.mem_singleton.mp h)

theorem setitem_terms_mem (v : FuzzyVariable) (key : String)
    (item : CurveOrTerm) (u : FuzzyVariableTerm)
    (hu : u ∈ (setitem v key item).1.terms) :
    u ∈ v.terms ∨ ¬ outOfRange u.mf := by
  rcases setitem_spec v key item with ⟨h1, _⟩ | ⟨t, _, hfst, _, _, hr, _⟩
  · rw [h1] at hu
    exact Or.inl hu
  · rw [hfst] at hu
    rcases termsInsert_mem v.terms key t u hu with h | h
    · exact Or.inl h
    · exact Or.inr (h ▸ hr)

theorem crisp_value_get_fst (v : FuzzyVariable) :
    (crisp_value_get v).1 = v ∨
    (crisp_value_get v).1 = { v with crisp_value_accessed := true } := by
  unfold crisp_value_get
  cases h : find_crisp_value v with
  | error e => exact Or.inl rfl
  | ok p =>
    rcases p with ⟨out, cuts⟩
    by_cases hc : cuts.length = 0
    · exact Or.inl (by simp [hc])
    · exact Or.inr (by simp [hc])

theorem crisp_value_get_fst_terms (v : FuzzyVariable) :
    (crisp_value_get v).1.terms = v.terms := by
  rcases crisp_value_get_fst v with h | h <;> rw [h]

theorem crisp_value_set_terms_mem (v : FuzzyVariable) (x : ℚ)
    (u : FuzzyVariableTerm) (hu : u ∈ (crisp_value_set v x).1.terms) :
    ∃ t ∈ v.terms, u.mf = t.mf := by
  unfold crisp_value_set at hu
  split at hu
  · exact ⟨u, hu, rfl⟩
  · rcases List.mem_map.mp hu with ⟨w, hw, hwe⟩
    exact ⟨w, hw, by rw [← hwe]⟩

theorem setDegree_terms_mem (v : FuzzyVariable) (key : String) (d : ℚ)
    (u : FuzzyVariableTerm) (hu : u ∈ (setDegree v key d).terms) :
    ∃ t ∈ v.terms, u.mf = t.mf := by
  unfold setDegree at hu
  rcases List.mem_map.mp hu with ⟨w, hw, hwe⟩
  subst hwe
  split
  · exact ⟨w, hw, rfl⟩
  · exact ⟨w, hw, rfl⟩

theorem not_getitem_cases (v : FuzzyVariable) (key : String) :
    (not_getitem v key).1 = v ∨
    ∃ it, not_getitem v key = setitem v ("NOT-" ++ key) (.term it) := by
  by_cases hc : (termsLookup v.terms ("NOT-" ++ key)).isSome
  · left
    simp [not_getitem, hc]
  · cases h : getitem v key with
    | error e =>
      left
      simp [not_getitem, hc, h]
    | ok posterm =>
      right
      refine ⟨⟨"NOT-" ++ key, posterm.mf.map (fun m => 1 - m), false, match posterm.membership_value with | none => none | some m => some (1 - m)⟩, ?_⟩
      simp [not_getitem, hc, h]

theorem automfReg_foldl_terms_mem (l : List (String × (ℚ × ℚ × ℚ)))
    (acc : FuzzyVariable × Except Err Unit) (u : FuzzyVariableTerm)
    (hu : u ∈ (l.foldl automfReg acc).1.terms) :
    u ∈ acc.1.terms ∨ ¬ outOfRange u.mf := by
  induction l generalizing acc with
  | nil => exact Or.inl hu
  | cons p rest ih =>
    rcases ih (automfReg acc p) (by simpa using hu) with h | h
    · unfold automfReg at h
      split at h
      · exact Or.inl h
      · exact setitem_terms_mem _ _ _ _ h
    · exact Or.inr h

theorem automf_terms_mem (v : FuzzyVariable) (number : Nat) (ty : String)
    (ns : Option (List String)) (inv : Bool) (u : FuzzyVariableTerm)
    (hu : u ∈ (automf v number ty ns inv).1.terms) :
    u ∈ v.terms ∨ ¬ outOfRange u.mf := by
  unfold automf at hu
  split at hu
  · exact Or.inl hu
  · rcases automfReg_foldl_terms_mem _ _ _ hu with h | h
    · simp at h
    · exact Or.inr h

theorem reachable_range (v : FuzzyVariable) (h : Reachable v) :
    ∀ t ∈ v.terms, ∀ s ∈ t.mf, 0 - eps ≤ s ∧ s ≤ 1 + eps := by
  induction h with
  | init u l m => simp [FuzzyVariable.init]
  | registration key item hv ih =>
    intro t ht
    rcases setitem_terms_mem _ key item t ht with h | h
    · exact ih t h
    · exact (not_outOfRange_iff t.mf).mp h
  | read hv ih =>
    intro t ht
    rw [crisp_value_get_fst_terms] at ht
    exact ih t ht
  | write x hv ih =>
    intro t ht
    rcases crisp_value_set_terms_mem _ x t ht with ⟨w, hw, hmf⟩
    rw [hmf]
    exact ih w hw
  | negation key hv ih =>
    intro t ht
    rcases not_getitem_cases _ key with h | ⟨it, h⟩
    · rw [h] at ht
      exact ih t ht
    · rw [h] at ht
      rcases setitem_terms_mem _ _ _ t ht with h1 | h1
      · exact ih t h1
      · exact (not_outOfRange_iff t.mf).mp h1
  | degreeSet key d hv ih =>
    intro t ht
    rcases setDegree_terms_mem _ key d t ht with ⟨w, hw, hmf⟩
    rw [hmf]
    exact ih w hw
  | auto number ty ns inv hv ih =>
    intro t ht
    rcases automf_terms_mem _ number ty ns inv t ht with h | h
    · exact ih t h
    · exact (not_outOfRange_iff t.mf).mp h

/-- Claim C7: registration fails with `ShapeMismatchError` on a curve whose
length differs from the universe's (on an unlocked variable — the lock check
precedes the shape check), with `RangeError` when a sample of a
length-matching curve lies outside `[0 - 1e-6, 1 + 1e-6]`, and with
`ValidationError` when a pre-built term's label differs from the key or the
term already has a parent (checked before everything else); consequently
every registered curve of every reachable variable is within the tolerated
range at every sample. -/
theorem claim_C7 :
    (∀ (v : FuzzyVariable) (key : String) (t : FuzzyVariableTerm),
      t.label ≠ key ∨ t.parent_variable = true →
      setitem v key (.term t) = (v, .error .ValidationError)) ∧
    (∀ (v : FuzzyVariable) (key : String) (mf : List ℚ),
      v.crisp_value_accessed = false → mf.length ≠ v.univ.length →
      setitem v key (.curve mf) = (v, .error .ShapeMismatchError)) ∧
    (∀ (v : FuzzyVariable) (key : String) (mf : List ℚ),
      v.crisp_value_accessed = false → mf.length = v.univ.length →
      outOfRange mf → setitem v key (.curve mf) = (v, .error .RangeError)) ∧
    (∀ v : FuzzyVariable, Reachable v →
      ∀ t ∈ v.terms, ∀ s ∈ t.mf, 0 - eps ≤ s ∧ s ≤ 1 + eps) := by
  refine ⟨?_, ?_, ?_, reachable_range⟩
  · intro v key t h
    exact setitem_invalid_term v key t h
  · intro v key mf h1 h2
    simp [setitem, h1, h2]
  · intro v key mf h1 h2 h3
    simp [setitem, h1, h2, h3]

/-- Claim C7, witness: the three rejections at concrete inputs, and the range
invariant evaluated on a concretely reached two-sample variable. -/
theorem claim_C7_witness :
    setitem ⟨[0, 1], "v", "centroid", [], false⟩ "b"
        (.term ⟨"a", [0, 1], false, none⟩) =
      (⟨[0, 1], "v", "centroid", [], false⟩, .error .ValidationError) ∧
    setitem ⟨[0, 1], "v", "centroid", [], false⟩ "a" (.curve [0]) =
      (⟨[0, 1], "v", "centroid", [], false⟩, .error .ShapeMismatchError) ∧
    setitem ⟨[0, 1], "v", "centroid", [], false⟩ "a" (.curve [0, 3/2]) =
      (⟨[0, 1], "v", "centroid", [], false⟩, .error .RangeError) ∧
    (∀ t ∈ (setitem (FuzzyVariable.init [0, 1] "v" "centroid") "a"
        (.curve [0, 1])).1.terms, ∀ s ∈ t.mf, 0 - eps ≤ s ∧ s ≤ 1 + eps) :=
  ⟨claim_C7.1 _ _ _ (Or.inl (by decide)),
   claim_C7.2.1 _ _ _ rfl (by decide),
   claim_C7.2.2.1 _ _ _ rfl (by decide) (by decide),
   claim_C7.2.2.2 _ (Reachable.registration "a" (.curve [0, 1])
     (Reachable.init [0, 1] "v" "centroid"))⟩

theorem optionsAux_spec (keys : List String) : ∀ (j i0 i1 : Int),
    i0 = j + keys.length - 1 → i1 = j + keys.length - 2 →
    optionsAux i0 i1 j keys = specOptions keys := by
  induction keys with
  | nil =>
    intro j i0 i1 h0 h1
    rfl
  | cons k rest ih =>
    intro j i0 i1 h0 h1
    simp only [List.length_cons] at h0 h1
    push_cast at h0 h1
    cases rest with
    | nil =>
      simp only [List.length_nil] at h0 h1
      simp only [optionsAux, specOptions]
      rw [if_neg (by omega), if_pos (by omega)]
      simp
    | cons k2 rest2 =>
      simp only [List.length_cons] at h0 h1
      push_cast at h0 h1
      cases rest2 with
      | nil =>
        simp only [List.length_nil] at h0 h1
        simp only [optionsAux, specOptions]
        rw [if_pos (by omega), if_neg (by omega), if_pos (by omega)]
        simp
      | cons k3 rest3 =>
        have hlen : (1 : Int) ≤ ((k3 :: rest3).length : Int) := by
          simp only [List.length_cons]
          push_cast
          omega
        have h0' : i0 = (j + 1) + ((k2 :: k3 :: rest3).length : Int) - 1 := by
          simp only [List.length_cons] at h0 ⊢
          push_cast at h0 ⊢
          omega
        have h1' : i1 = (j + 1) + ((k2 :: k3 :: rest3).length : Int) - 2 := by
          simp only [List.length_cons] at h1 ⊢
          push_cast at h1 ⊢
          omega
        have hih := ih (j + 1) i0 i1 h0' h1'
        simp only [optionsAux] at hih
        simp only [optionsAux, specOptions]
        rw [if_neg (by omega), if_neg (by omega)]
        rw [hih]

/-- Claim C6: looking up an absent label fails with a `LookupError` whose
options fragment enumerates the registered labels in insertion order, joined
with `"; "`, with `", or "` before the last and a trailing period (the loop
of the source reproduces the spec's format on every label list), and for
labels `a`, `b`, `c` the fragment is exactly the nine-token string below. -/
theorem claim_C6 :
    (∀ keys : List String, buildOptions keys = specOptions keys) ∧
    (∀ (v : FuzzyVariable) (key : String), termsLookup v.terms key = none →
      getitem v key =
        .error (.LookupError (buildOptions (v.terms.map (fun t => t.label))))) ∧
    buildOptions ["a", "b", "c"] =
      squo ++ "a" ++ squo ++ "; " ++ squo ++ "b" ++ squo ++ ", or " ++
        squo ++ "c" ++ squo ++ "." := by
  refine ⟨?_, ?_, by rfl⟩
  · intro keys
    unfold buildOptions
    exact optionsAux_spec keys 0 _ _ (by omega) (by omega)
  · intro v key h
    simp [getitem, h]

/-- Claim C6, witness: a concrete three-term variable rejects an absent label
with the expected options fragment. -/
theorem claim_C6_witness :
    getitem ⟨[0], "v", "centroid",
        [⟨"a", [0], true, none⟩, ⟨"b", [0], true, none⟩,
          ⟨"c", [0], true, none⟩], false⟩ "missing" =
      .error (.LookupError (buildOptions ["a", "b", "c"])) :=
  claim_C6.2.1 _ "missing" rfl

theorem chain_head_lt_getD (a : ℚ) (l : List ℚ)
    (h : List.Chain' (· < ·) (a :: l)) :
    ∀ k, k < l.length → a < l.getD k 0 := by
  induction l generalizing a with
  | nil =>
    intro k hk
    simp at hk
  | cons b l' ih =>
    intro k hk
    have hab : a < b := (List.chain'_cons.mp h).1
    have hb : List.Chain' (· < ·) (b :: l') := (List.chain'_cons.mp h).2
    cases k with
    | zero => simpa using hab
    | succ k' =>
      have hk' : k' < l'.length := by simpa using hk
      exact lt_trans hab (ih b hb k' hk')

theorem interp_at_sample : ∀ (xs ys : List ℚ), List.Chain' (· < ·) xs →
    ys.length = xs.length → ∀ i, i < xs.length →
    interp_membership xs ys (xs.getD i 0) = ys.getD i 0 := by
  intro xs
  induction xs with
  | nil =>
    intro ys _ _ i hi
    simp at hi
  | cons x0 xs2 ih =>
    intro ys hch hlen i hi
    cases ys with
    | nil => simp at hlen
    | cons y0 ys2 =>
      cases xs2 with
      | nil =>
        have h0 : i = 0 := by
          simp at hi
          omega
        subst h0
        simp [interp_membership]
      | cons x1 xs3 =>
        cases ys2 with
        | nil => simp at hlen
        | cons y1 ys3 =>
          cases i with
          | zero => simp [interp_membership]
          | succ j =>
            have hx0 : x0 < (x1 :: xs3).getD j 0 :=
              chain_head_lt_getD x0 _ hch j (by simpa using hi)
            show interp_membership (x0 :: x1 :: xs3) (y0 :: y1 :: ys3)
              ((x1 :: xs3).getD j 0) = (y1 :: ys3).getD j 0
            simp only [interp_membership]
            rw [if_neg (not_le.mpr hx0)]
            cases j with
            | zero =>
              have h01 : x0 < x1 := (List.chain'_cons.mp hch).1
              have hne : x1 - x0 ≠ 0 := sub_ne_zero.mpr (ne_of_gt h01)
              show (if x1 ≤ x1 then y0 + (y1 - y0) * (x1 - x0) / (x1 - x0)
                else interp_membership (x1 :: xs3) (y1 :: ys3) x1) = y1
              rw [if_pos le_rfl, mul_div_assoc, div_self hne, mul_one]
              ring
            | succ k =>
              have hch1 : List.Chain' (· < ·) (x1 :: xs3) :=
                (List.chain'_cons.mp hch).2
              have hx1 : x1 < xs3.getD k 0 :=
                chain_head_lt_getD x1 _ hch1 k (by simpa using hi)
              show (if xs3.getD k 0 ≤ x1 then
                  y0 + (y1 - y0) * (xs3.getD k 0 - x0) / (x1 - x0)
                else interp_membership (x1 :: xs3) (y1 :: ys3) (xs3.getD k 0))
                = ys3.getD k 0
              rw [if_neg (not_le.mpr hx1)]
              exact ih (y1 :: ys3) hch1 (by simpa using hlen) (k + 1)
                (by simpa using hi)

theorem interp_left_clamp (x0 : ℚ) (xs ys : List ℚ) (x : ℚ)
    (hlen : ys.length = xs.length + 1) (h : x ≤ x0) :
    interp_membership (x0 :: xs) ys x = ys.headD 0 := by
  cases ys with
  | nil => simp at hlen
  | cons y0 ys2 =>
    cases xs with
    | nil =>
      simp [interp_membership]
    | cons x1 xs3 =>
      cases ys2 with
      | nil => simp at hlen
      | cons y1 ys3 =>
        simp only [interp_membership]
        rw [if_pos h]
        rfl

theorem interp_right_clamp : ∀ (xs ys : List ℚ) (x : ℚ),
    ys.length = xs.length → (∀ u ∈ xs, u < x) →
    interp_membership xs ys x = ys.getLastD 0 := by
  intro xs
  induction xs with
  | nil =>
    intro ys x hlen _
    rw [List.length_nil, List.length_eq_zero] at hlen
    subst hlen
    rfl
  | cons x0 xs2 ih =>
    intro ys x hlen hall
    cases ys with
    | nil => simp at hlen
    | cons y0 ys2 =>
      cases xs2 with
      | nil =>
        cases ys2 with
        | nil => rfl
        | cons => simp at hlen
      | cons x1 xs3 =>
        cases ys2 with
        | nil => simp at hlen
        | cons y1 ys3 =>
          simp only [interp_membership]
          rw [if_neg (not_le.mpr (hall x0 (by simp))),
            if_neg (not_le.mpr (hall x1 (by simp)))]
          rw [ih (y1 :: ys3) x (by simpa using hlen)
            (fun u hu => hall u (by simp [hu]))]
          rfl

/-- Claim C5: with at least one registered term, writing the crisp value
always succeeds and sets every term's degree to the piecewise-linear
interpolation of its curve at the written value (raising the lock flag); with
no terms it fails with `StateError`.  The interpolation is exact at the
samples of a strictly increasing grid and clamps to the boundary sample
outside the grid. -/
theorem claim_C5 (v : FuzzyVariable) (x : ℚ) :
    (v.terms = [] → crisp_value_set v x = (v, .error .StateError)) ∧
    (v.terms ≠ [] → crisp_value_set v x =
      ({ v with terms := v.terms.map (fun adj => { adj with membership_value := some (interp_membership v.univ adj.mf x) }), crisp_value_accessed := true }, .ok ())) ∧
    (∀ (xs ys : List ℚ), List.Chain' (· < ·) xs → ys.length = xs.length →
      ∀ i, i < xs.length →
      interp_membership xs ys (xs.getD i 0) = ys.getD i 0) ∧
    (∀ (x0 : ℚ) (xs ys : List ℚ), ys.length = xs.length + 1 → x ≤ x0 →
      interp_membership (x0 :: xs) ys x = ys.headD 0) ∧
    (∀ (xs ys : List ℚ), ys.length = xs.length → (∀ u ∈ xs, u < x) →
      interp_membership xs ys x = ys.getLastD 0) := by
  refine ⟨?_, ?_, interp_at_sample, ?_, ?_⟩
  · intro h
    simp [crisp_value_set, h]
  · intro h
    rw [crisp_value_set, if_neg (by simpa [List.length_eq_zero] using h)]
  · intro x0 xs ys hlen hx
    exact interp_left_clamp x0 xs ys x hlen hx
  · intro xs ys hlen hall
    exact interp_right_clamp xs ys x hlen hall

/-- Claim C5, witness: on a two-sample universe, writing the crisp value 1
interpolates the degree to 1/2; interpolation at the sample 0 returns the
sample value 0; interpolation at 5, beyond the grid, clamps to the last
sample value 1; and the write on a term-less variable fails. -/
theorem claim_C5_witness :
    crisp_value_set ⟨[0, 2], "v", "centroid",
        [⟨"a", [0, 1], true, none⟩], false⟩ 1 =
      (⟨[0, 2], "v", "centroid", [⟨"a", [0, 1], true, some (1/2)⟩], true⟩,
        .ok ()) ∧
    interp_membership [0, 2] [0, 1] 0 = 0 ∧
    interp_membership [0, 2] [0, 1] 5 = 1 ∧
    crisp_value_set ⟨[0, 2], "w", "centroid", [], false⟩ 1 =
      (⟨[0, 2], "w", "centroid", [], false⟩, .error .StateError) :=
  ⟨((claim_C5 _ 1).2.1 (by decide)).trans (by rfl),
   (claim_C5 ⟨[0, 2], "v", "centroid", [], false⟩ 0).2.2.1
     [0, 2] [0, 1] (List.chain'_cons.mpr ⟨by decide, List.chain'_singleton 2⟩)
     (by decide) 0 (by decide),
   (claim_C5 ⟨[0, 2], "v", "centroid", [], false⟩ 5).2.2.2.2
     [0, 2] [0, 1] (by decide) (by decide),
   (claim_C5 _ 1).1 rfl⟩

theorem termsLookup_insert_self (ts : List FuzzyVariableTerm) (key : String)
    (t : FuzzyVariableTerm) (hl : t.label = key) :
    termsLookup (termsInsert ts key t) key = some t := by
  unfold termsInsert
  split <;> rename_i h
  · induction ts with
    | nil => simp at h
    | cons u us ih =>
      simp only [List.map_cons]
      by_cases hu : u.label = key
      · rw [if_pos (by simpa using hu)]
        unfold termsLookup
        rw [List.find?_cons_of_pos _ (by simpa using hl)]
      · rw [if_neg (by simpa using hu)]
        unfold termsLookup
        rw [List.find?_cons_of_neg _ (by simpa using hu)]
        apply ih
        simpa [hu] using h
  · have hnone : ts.find? (fun u => u.label == key) = none := by
      rw [List.find?_eq_none]
      intro x hx hx2
      exact h (by
        simp only [List.any_eq_true]
        exact ⟨x, hx, hx2⟩)
    unfold termsLookup
    rw [List.find?_append, hnone]
    simp [hl]

theorem neg_curve_in_range (mf : List ℚ)
    (h : ∀ s ∈ mf, 0 - eps ≤ s ∧ s ≤ 1 + eps) :
    ¬ outOfRange (mf.map (fun m => 1 - m)) := by
  rw [not_outOfRange_iff]
  intro s hs
  rcases List.mem_map.mp hs with ⟨m, hm, rfl⟩
  have hb := h m hm
  constructor <;> [linarith [hb.2]; linarith [hb.1]]

/-- Claim C4 (amended): on an unlocked variable, the first access of
`not_[L]` for a registered term `L` (with a well-shaped, in-range curve and
no `NOT-L` entry yet) returns a term labelled `NOT-L` whose curve is the
pointwise complement of `L`'s curve and whose degree is the complement of
`L`'s degree when that degree is set (and is unset otherwise); a second
access returns the same cached term without touching the state.  (On a locked
variable the first access instead fails with `StateError`, because the
derived term is registered through the ordinary registration path.) -/
theorem claim_C4 (v : FuzzyVariable) (L : String) (t : FuzzyVariableTerm)
    (hlock : v.crisp_value_accessed = false)
    (hnc : termsLookup v.terms ("NOT-" ++ L) = none)
    (ht : termsLookup v.terms L = some t)
    (hlen : t.mf.length = v.univ.length)
    (hrange : ∀ s ∈ t.mf, 0 - eps ≤ s ∧ s ≤ 1 + eps) :
    ∃ v1 nt, not_getitem v L = (v1, .ok nt) ∧
      nt.label = "NOT-" ++ L ∧
      nt.mf = t.mf.map (fun m => 1 - m) ∧
      nt.membership_value = t.membership_value.map (fun d => 1 - d) ∧
      not_getitem v1 L = (v1, .ok nt) := by
  have hget : getitem v L = .ok t := by simp [getitem, ht]
  have hrg : ¬ outOfRange (t.mf.map (fun m => 1 - m)) :=
    neg_curve_in_range t.mf hrange
  have hml : (t.mf.map (fun m => 1 - m)).length = v.univ.length := by
    simpa using hlen
  have hfirst : not_getitem v L =
      setitem v ("NOT-" ++ L) (.term ⟨"NOT-" ++ L, t.mf.map (fun m => 1 - m), false, match t.membership_value with | none => none | some m => some (1 - m)⟩) := by
    simp [not_getitem, hnc, hget]
  have hset : setitem v ("NOT-" ++ L) (.term ⟨"NOT-" ++ L, t.mf.map (fun m => 1 - m), false, match t.membership_value with | none => none | some m => some (1 - m)⟩) =
      ({ v with terms := termsInsert v.terms ("NOT-" ++ L) (⟨"NOT-" ++ L, t.mf.map (fun m => 1 - m), true, match t.membership_value with | none => none | some m => some (1 - m)⟩ : FuzzyVariableTerm) }, .ok (⟨"NOT-" ++ L, t.mf.map (fun m => 1 - m), true, match t.membership_value with | none => none | some m => some (1 - m)⟩ : FuzzyVariableTerm)) := by
    simp [setitem, hlock, hml, hrg]
  refine ⟨_, _, hfirst.trans hset, rfl, rfl, ?_, ?_⟩
  · cases t.membership_value <;> rfl
  · have hlk : termsLookup
        ({ v with terms := termsInsert v.terms ("NOT-" ++ L) (⟨"NOT-" ++ L, t.mf.map (fun m => 1 - m), true, match t.membership_value with | none => none | some m => some (1 - m)⟩ : FuzzyVariableTerm) } : FuzzyVariable).terms ("NOT-" ++ L) =
        some (⟨"NOT-" ++ L, t.mf.map (fun m => 1 - m), true, match t.membership_value with | none => none | some m => some (1 - m)⟩ : FuzzyVariableTerm) :=
      termsLookup_insert_self _ _ _ rfl
    simp [not_getitem, hlk, getitem]

/-- Claim C4, witness: on a concrete unlocked one-term variable with the
degree of `a` set to 1/4, `not_["a"]` yields the complement term and a second
access returns the cached term unchanged. -/
theorem claim_C4_witness :
    ∃ v1 nt,
      not_getitem ⟨[0, 1], "v", "centroid",
          [⟨"a", [0, 1], true, some (1/4)⟩], false⟩ "a" = (v1, .ok nt) ∧
      nt.label = "NOT-" ++ "a" ∧
      nt.mf = [(0 : ℚ), 1].map (fun m => 1 - m) ∧
      nt.membership_value = (some (1/4 : ℚ)).map (fun d => 1 - d) ∧
      not_getitem v1 "a" = (v1, .ok nt) :=
  claim_C4 ⟨[0, 1], "v", "centroid", [⟨"a", [0, 1], true, some (1/4)⟩], false⟩
    "a" ⟨"a", [0, 1], true, some (1/4)⟩ rfl rfl rfl (by decide) (by decide)

/-- Claim C4, counterexample to the claim as stated: on a locked variable
with `a` registered and no cached `NOT-a`, `not_["a"]` does not return a
term — the derived term goes through the ordinary registration path and the
lock check rejects it with `StateError`. -/
theorem claim_C4_counterexample :
    not_getitem ⟨[0, 1], "v", "centroid",
        [⟨"a", [0, 1], true, some 1⟩], true⟩ "a" =
      (⟨[0, 1], "v", "centroid", [⟨"a", [0, 1], true, some 1⟩], true⟩,
        .error .StateError) := by
  rfl

theorem findStep_foldl_snd (ts : List FuzzyVariableTerm)
    (acc : List ℚ) (ps : List (String × List ℚ)) :
    (ts.foldl findStep (acc, ps)).2 =
      ps ++ ts.filterMap (fun t => t.membership_value.map
        (fun c => (t.label, t.mf.map (fun m => min c m)))) := by
  induction ts generalizing acc ps with
  | nil => simp
  | cons t rest ih =>
    cases hd : t.membership_value with
    | none =>
      simp only [List.foldl_cons, List.filterMap_cons, hd, Option.map_none']
      rw [show findStep (acc, ps) t = (acc, ps) by simp [findStep, hd]]
      exact ih acc ps
    | some c =>
      simp only [List.foldl_cons, List.filterMap_cons, hd, Option.map_some']
      rw [show findStep (acc, ps) t =
        (List.zipWith max acc (t.mf.map (fun m => min c m)),
          ps ++ [(t.label, t.mf.map (fun m => min c m))]) by
          simp [findStep, hd]]
      rw [ih]
      simp

theorem find_crisp_value_of_ne (v : FuzzyVariable) (hne : v.terms ≠ []) :
    find_crisp_value v =
      .ok (v.terms.foldl findStep (v.univ.map (fun _ => (0 : ℚ)), [])) := by
  rw [find_crisp_value, if_neg (by simpa [List.length_eq_zero] using hne)]

theorem crisp_value_get_of_some_degree (v : FuzzyVariable)
    (h : ∃ t ∈ v.terms, t.membership_value ≠ none) :
    ∃ out cuts, find_crisp_value v = .ok (out, cuts) ∧ cuts ≠ [] ∧
      crisp_value_get v =
        ({ v with crisp_value_accessed := true },
          defuzz v.univ out v.defuzzify_method) := by
  obtain ⟨t, ht, hd⟩ := h
  have hne : v.terms ≠ [] := by
    intro he
    rw [he] at ht
    simp at ht
  have hfind := find_crisp_value_of_ne v hne
  refine ⟨(v.terms.foldl findStep (v.univ.map (fun _ => (0 : ℚ)), [])).1,
    (v.terms.foldl findStep (v.univ.map (fun _ => (0 : ℚ)), [])).2,
    by rw [hfind], ?_, ?_⟩
  · rw [findStep_foldl_snd]
    simp only [List.nil_append, ne_eq, List.filterMap_eq_nil]
    intro hall
    have := hall t ht
    simp [Option.map_eq_none'] at this
    exact hd this
  · have hlen : (v.terms.foldl findStep
        (v.univ.map (fun _ => (0 : ℚ)), [])).2.length ≠ 0 := by
      rw [findStep_foldl_snd]
      simp only [List.nil_append, ne_eq, List.length_eq_zero,
        List.filterMap_eq_nil]
      intro hall
      have := hall t ht
      simp [Option.map_eq_none'] at this
      exact hd this
    simp only [crisp_value_get, hfind]
    rw [if_neg hlen]

theorem crisp_value_get_no_degree (v : FuzzyVariable)
    (h : ∀ t ∈ v.terms, t.membership_value = none) :
    crisp_value_get v = (v, .error .StateError) := by
  by_cases hne : v.terms = []
  · rw [crisp_value_get, find_crisp_value, if_pos (by simp [hne])]
  · have hfind := find_crisp_value_of_ne v hne
    have hsnd : (v.terms.foldl findStep
        (v.univ.map (fun _ => (0 : ℚ)), [])).2 = [] := by
      rw [findStep_foldl_snd]
      simp only [List.nil_append, List.filterMap_eq_nil]
      intro t ht
      simp [h t ht]
    have hz : ((v.terms.foldl findStep
        (v.univ.map (fun _ => (0 : ℚ)), [])).2).length = 0 := by
      rw [hsnd]
      rfl
    simp only [crisp_value_get, hfind, hz]
    simp

/-- Claim C8 (amended): reading the crisp value fails with `StateError` when
no registered term has a defined degree (in particular with no terms at all);
otherwise it locks the variable and returns whatever the configured
defuzzifier yields on the aggregated curve — a scalar, unless the
defuzzification itself fails (degenerate denominator, unrecognized strategy).
In every case the term set — and with it every curve and every degree — is
left unchanged. -/
theorem claim_C8 (v : FuzzyVariable) :
    ((crisp_value_get v).1.terms = v.terms) ∧
    ((∀ t ∈ v.terms, t.membership_value = none) →
      crisp_value_get v = (v, .error .StateError)) ∧
    ((∃ t ∈ v.terms, t.membership_value ≠ none) →
      ∃ out cuts, find_crisp_value v = .ok (out, cuts) ∧ cuts ≠ [] ∧
        crisp_value_get v =
          ({ v with crisp_value_accessed := true },
            defuzz v.univ out v.defuzzify_method)) :=
  ⟨crisp_value_get_fst_terms v, crisp_value_get_no_degree v,
    crisp_value_get_of_some_degree v⟩

/-- Claim C8, witness: a variable whose only term has no degree fails with
`StateError` and is unchanged; once the degree is set, the read delegates the
aggregated curve to the defuzzifier. -/
theorem claim_C8_witness :
    crisp_value_get ⟨[0, 1], "v", "centroid",
        [⟨"a", [0, 1], true, none⟩], false⟩ =
      (⟨[0, 1], "v", "centroid", [⟨"a", [0, 1], true, none⟩], false⟩,
        .error .StateError) ∧
    (∃ out cuts,
      find_crisp_value ⟨[0, 1], "v", "centroid",
        [⟨"a", [0, 1], true, some (1/2)⟩], false⟩ = .ok (out, cuts) ∧
      cuts ≠ [] ∧
      crisp_value_get ⟨[0, 1], "v", "centroid",
          [⟨"a", [0, 1], true, some (1/2)⟩], false⟩ =
        (⟨[0, 1], "v", "centroid", [⟨"a", [0, 1], true, some (1/2)⟩], true⟩,
          defuzz [0, 1] out "centroid")) :=
  ⟨(claim_C8 _).2.1 (by decide),
   (claim_C8 ⟨[0, 1], "v", "centroid",
       [⟨"a", [0, 1], true, some (1/2)⟩], false⟩).2.2
     ⟨⟨"a", [0, 1], true, some (1/2)⟩, by decide, by decide⟩⟩

/-- Claim C8, counterexample to the claim as stated: a term with an all-zero
curve and a set degree yields a nonempty cut collection, yet the read does
not return a scalar — the centroid denominator is zero and the read fails
with `DegenerateResultError` (raised by the spec-modelled `defuzz`). -/
theorem claim_C8_counterexample :
    (∃ t ∈ (⟨[0, 1], "w", "centroid", [⟨"zero", [0, 0], true, some (3/4)⟩],
      false⟩ : FuzzyVariable).terms, t.membership_value ≠ none) ∧
    (crisp_value_get ⟨[0, 1], "w", "centroid",
        [⟨"zero", [0, 0], true, some (3/4)⟩], false⟩).2 =
      .error .DegenerateResultError :=
  ⟨⟨⟨"zero", [0, 0], true, some (3/4)⟩, by decide, by decide⟩, rfl⟩

theorem defuzz_unknown (xs mf : List ℚ) (method : String)
    (h : method ∉ (["centroid", "bisector", "mom", "som", "lom"] :
      List String)) :
    defuzz xs mf method = .error .ConfigError := by
  simp only [List.mem_cons, List.mem_singleton, not_or] at h
  obtain ⟨h1, h2, h3, h4, h5, _⟩ := h
  simp [defuzz, h1, h2, h3, h4, h5]

/-- Claim C9 (amended): the constructor performs no validation of the
defuzzification strategy name — it stores it verbatim and returns a fully
functional variable; an unrecognized name only surfaces as a `ConfigError`
when the crisp value is first read (raised by the spec-modelled `defuzz`),
not at the construction boundary. -/
theorem claim_C9 :
    (∀ (u : List ℚ) (l m : String), FuzzyVariable.init u l m =
      { univ := u, label := l, defuzzify_method := m, terms := [],
        crisp_value_accessed := false }) ∧
    (∀ v : FuzzyVariable,
      v.defuzzify_method ∉ (["centroid", "bisector", "mom", "som", "lom"] :
        List String) →
      (∃ t ∈ v.terms, t.membership_value ≠ none) →
      (crisp_value_get v).2 = .error .ConfigError) := by
  refine ⟨fun u l m => rfl, fun v hm hd => ?_⟩
  obtain ⟨out, cuts, _, _, hget⟩ := crisp_value_get_of_some_degree v hd
  rw [hget]
  simp [defuzz_unknown v.univ out v.defuzzify_method hm]

/-- Claim C9, witness: a variable constructed with the unrecognized strategy
`"bogus"`, one registered term and a set degree fails with `ConfigError` at
the crisp read. -/
theorem claim_C9_witness :
    (crisp_value_get ⟨[0, 1], "v", "bogus",
      [⟨"a", [1, 0], true, some (1/2)⟩], false⟩).2 = .error .ConfigError :=
  claim_C9.2 ⟨[0, 1], "v", "bogus", [⟨"a", [1, 0], true, some (1/2)⟩], false⟩
    (by decide) ⟨⟨"a", [1, 0], true, some (1/2)⟩, by decide, by decide⟩

/-- Claim C9, counterexample to the claim as stated: constructing a variable
with the unrecognized strategy `"bogus"` does not raise anything — the
constructor returns an ordinary variable, registration on it succeeds, and
the `ConfigError` appears only at the later crisp read. -/
theorem claim_C9_counterexample :
    FuzzyVariable.init [0, 1] "v" "bogus" =
      ⟨[0, 1], "v", "bogus", [], false⟩ ∧
    (setitem (FuzzyVariable.init [0, 1] "v" "bogus") "a"
      (.curve [1, 0])).2 = .ok ⟨"a", [1, 0], true, none⟩ ∧
    (crisp_value_get (setDegree
      (setitem (FuzzyVariable.init [0, 1] "v" "bogus") "a"
        (.curve [1, 0])).1 "a" (1/2))).2 = .error .ConfigError :=
  ⟨rfl, rfl, rfl⟩

theorem defuzz_ne_state (xs mf : List ℚ) (method : String) :
    defuzz xs mf method ≠ .error .StateError := by
  intro h
  unfold defuzz at h
  dsimp only at h
  repeat' split at h
  all_goals simp at h

/-- Claim C3 (amended): registration is all-or-nothing — an error leaves the
variable untouched, success binds the term's parent and inserts it; a
crisp-value write that fails leaves the variable untouched; and a crisp-value
read that fails its own `StateError` checks (no terms, or no degrees to
aggregate) leaves the variable untouched, in particular unlocked.  (When the
read instead fails inside the defuzzifier, the lock flag has already been
raised — see the counterexample.) -/
theorem claim_C3 (v : FuzzyVariable) (key : String) (item : CurveOrTerm)
    (x : ℚ) :
    ((∃ e, (setitem v key item).2 = .error e) → (setitem v key item).1 = v) ∧
    (∀ t, (setitem v key item).2 = .ok t → t.parent_variable = true ∧
      (setitem v key item).1 = { v with terms := termsInsert v.terms key t }) ∧
    ((∃ e, (crisp_value_set v x).2 = .error e) → (crisp_value_set v x).1 = v) ∧
    ((crisp_value_get v).2 = .error .StateError →
      (crisp_value_get v).1 = v) := by
  refine ⟨?_, ?_, ?_, ?_⟩
  · rintro ⟨e, he⟩
    exact setitem_error_fst v key item e he
  · intro t ht
    obtain ⟨h1, h2, _⟩ := setitem_ok v key item t ht
    exact ⟨h2, h1⟩
  · rintro ⟨e, he⟩
    by_cases hz : v.terms.length = 0
    · rw [crisp_value_set, if_pos hz]
    · rw [crisp_value_set, if_neg hz] at he
      simp at he
  · intro h
    unfold crisp_value_get at h ⊢
    cases hf : find_crisp_value v with
    | error e => rfl
    | ok p =>
      rcases p with ⟨out, cuts⟩
      rw [hf] at h
      dsimp only at h ⊢
      by_cases hc : cuts.length = 0
      · simp [hc]
      · rw [if_neg hc] at h
        exact absurd h (defuzz_ne_state v.univ out v.defuzzify_method)

/-- Claim C3, witness: a failed registration on a locked variable leaves it
unchanged; a successful registration binds and inserts; a failed write
leaves the variable unchanged; a read failing with `StateError` (no degrees)
leaves the variable unlocked. -/
theorem claim_C3_witness :
    (setitem ⟨[0], "v", "centroid", [], true⟩ "a" (.curve [0])).1 =
      ⟨[0], "v", "centroid", [], true⟩ ∧
    ((⟨"a", [0], true, none⟩ : FuzzyVariableTerm).parent_variable = true ∧
      (setitem ⟨[0], "v", "centroid", [], false⟩ "a" (.curve [0])).1 =
        { (⟨[0], "v", "centroid", [], false⟩ : FuzzyVariable) with
            terms := termsInsert [] "a" ⟨"a", [0], true, none⟩ }) ∧
    ((crisp_value_set ⟨[0], "v", "centroid", [], false⟩ 1).1 =
      ⟨[0], "v", "centroid", [], false⟩) ∧
    ((crisp_value_get ⟨[0], "v", "centroid", [⟨"a", [0], true, none⟩],
        false⟩).1 =
      ⟨[0], "v", "centroid", [⟨"a", [0], true, none⟩], false⟩) :=
  ⟨(claim_C3 ⟨[0], "v", "centroid", [], true⟩ "a" (.curve [0]) 0).1
      ⟨.StateError, rfl⟩,
   (claim_C3 ⟨[0], "v", "centroid", [], false⟩ "a" (.curve [0]) 0).2.1
      ⟨"a", [0], true, none⟩ rfl,
   (claim_C3 ⟨[0], "v", "centroid", [], false⟩ "a" (.curve [0]) 1).2.2.1
      ⟨.StateError, rfl⟩,
   (claim_C3 ⟨[0], "v", "centroid", [⟨"a", [0], true, none⟩], false⟩ "a"
      (.curve [0]) 0).2.2.2 rfl⟩

/-- Claim C3, counterexample to the claim as stated: an all-zero curve with a
set degree reaches the defuzzifier, which fails with
`DegenerateResultError` — but the lock flag was raised before the
defuzzifier ran, so this erroring read does set the lock flag. -/
theorem claim_C3_counterexample :
    (setDegree (setitem (FuzzyVariable.init [0, 1, 2] "z" "centroid") "z"
        (.curve [0, 0, 0])).1 "z" (1/2)).crisp_value_accessed = false ∧
    (crisp_value_get (setDegree
        (setitem (FuzzyVariable.init [0, 1, 2] "z" "centroid") "z"
          (.curve [0, 0, 0])).1 "z" (1/2))).2 =
      .error .DegenerateResultError ∧
    (crisp_value_get (setDegree
        (setitem (FuzzyVariable.init [0, 1, 2] "z" "centroid") "z"
          (.curve [0, 0, 0])).1 "z" (1/2))).1.crisp_value_accessed = true :=
  ⟨rfl, rfl, rfl⟩

theorem getD_map_const_zero : ∀ (l : List ℚ) (i : Nat),
    ((l.map (fun _ => (0 : ℚ))).getD i 0) = 0 := by
  intro l
  induction l with
  | nil => intro i; rfl
  | cons x l' ih =>
    intro i
    cases i with
    | zero => rfl
    | succ j => exact ih j

theorem getD_zipWith_max : ∀ (a b : List ℚ) (i : Nat), i < a.length →
    i < b.length →
    (List.zipWith max a b).getD i 0 = max (a.getD i 0) (b.getD i 0) := by
  intro a
  induction a with
  | nil =>
    intro b i h
    simp at h
  | cons x a' ih =>
    intro b i h1 h2
    cases b with
    | nil => simp at h2
    | cons y b' =>
      cases i with
      | zero => rfl
      | succ j =>
        simp only [List.zipWith_cons_cons, List.getD_cons_succ]
        exact ih b' j (by simpa using h1) (by simpa using h2)

theorem getD_map_min : ∀ (l : List ℚ) (c : ℚ) (i : Nat), i < l.length →
    ((l.map (fun m => min c m)).getD i 0) = min c (l.getD i 0) := by
  intro l
  induction l with
  | nil =>
    intro c i h
    simp at h
  | cons x l' ih =>
    intro c i h
    cases i with
    | zero => rfl
    | succ j =>
      simp only [List.map_cons, List.getD_cons_succ]
      exact ih c j (by simpa using h)

theorem findStep_foldl_getD : ∀ (ts : List FuzzyVariableTerm)
    (acc : List ℚ) (ps : List (String × List ℚ)) (i : Nat),
    (∀ t ∈ ts, t.mf.length = acc.length) → i < acc.length →
    ((ts.foldl findStep (acc, ps)).1).getD i 0 =
      (ts.filterMap (fun t => t.membership_value.map
        (fun c => min c (t.mf.getD i 0)))).foldl max (acc.getD i 0) := by
  intro ts
  induction ts with
  | nil =>
    intro acc ps i _ _
    rfl
  | cons t rest ih =>
    intro acc ps i hlen hi
    cases hd : t.membership_value with
    | none =>
      simp only [List.foldl_cons, List.filterMap_cons, hd, Option.map_none']
      rw [show findStep (acc, ps) t = (acc, ps) by simp [findStep, hd]]
      exact ih acc ps i (fun u hu => hlen u (List.mem_cons_of_mem t hu)) hi
    | some c =>
      have hmf : t.mf.length = acc.length := hlen t (List.mem_cons_self t rest)
      have hzl : (List.zipWith max acc (t.mf.map (fun m => min c m))).length =
          acc.length := by
        simp [hmf]
      simp only [List.foldl_cons, List.filterMap_cons, hd, Option.map_some']
      rw [show findStep (acc, ps) t =
        (List.zipWith max acc (t.mf.map (fun m => min c m)),
          ps ++ [(t.label, t.mf.map (fun m => min c m))]) by
          simp [findStep, hd]]
      rw [ih (List.zipWith max acc (t.mf.map (fun m => min c m)))
        (ps ++ [(t.label, t.mf.map (fun m => min c m))]) i
        (fun u hu => by
          rw [hzl]
          exact hlen u (List.mem_cons_of_mem t hu))
        (by rw [hzl]; exact hi)]
      rw [getD_zipWith_max acc (t.mf.map (fun m => min c m)) i hi
        (by simpa [hmf] using hi)]
      rw [getD_map_min t.mf c i (by rw [hmf]; exact hi)]

theorem foldl_max_comm : ∀ (l : List ℚ) (a b : ℚ),
    l.foldl max (max a b) = max a (l.foldl max b) := by
  intro l
  induction l with
  | nil => intro a b; rfl
  | cons c l' ih =>
    intro a b
    simp only [List.foldl_cons]
    rw [max_assoc, ih a (max b c)]

theorem foldl_max_eq_maxQ : ∀ (l : List ℚ) (a : ℚ),
    l.foldl max a = (l.max?).elim a (fun m => max a m) := by
  intro l a
  cases l with
  | nil => rfl
  | cons x l' =>
    rw [List.foldl_cons, foldl_max_comm l' a x]
    rfl

/-- Claim C1 (amended): when the crisp value is read, the aggregated curve at
every universe sample is the maximum of **zero** and the cut values
`min(degree, curve)` of exactly those terms whose degree is defined — the
`np.zeros_like` initialisation of the output acts as an implicit floor at
zero.  Terms with unset degree are excluded from the cut collection entirely.
Whenever the defined cuts at a sample have a nonnegative maximum (in
particular whenever every curve is within `[0, 1]` proper), the aggregated
value equals exactly the claimed maximum over the defined terms. -/
theorem claim_C1 (v : FuzzyVariable)
    (hlen : ∀ t ∈ v.terms, t.mf.length = v.univ.length)
    (hne : v.terms ≠ []) :
    ∃ out cuts, find_crisp_value v = .ok (out, cuts) ∧
      cuts = v.terms.filterMap (fun t => t.membership_value.map
        (fun c => (t.label, t.mf.map (fun m => min c m)))) ∧
      (∀ i, i < v.univ.length →
        out.getD i 0 = ((specCutsAt v i).max?).elim 0 (fun m => max 0 m)) ∧
      (∀ i m, i < v.univ.length → (specCutsAt v i).max? = some m → 0 ≤ m →
        out.getD i 0 = m) := by
  have hz : ∀ i : Nat, ((v.univ.map (fun _ => (0 : ℚ))).getD i 0) = 0 :=
    getD_map_const_zero v.univ
  have hlen' : ∀ t ∈ v.terms,
      t.mf.length = (v.univ.map (fun _ => (0 : ℚ))).length := by
    intro t ht
    simpa using hlen t ht
  have h3 : ∀ i, i < v.univ.length →
      ((v.terms.foldl findStep (v.univ.map (fun _ => (0 : ℚ)), [])).1).getD
        i 0 = ((specCutsAt v i).max?).elim 0 (fun m => max 0 m) := by
    intro i hi
    rw [findStep_foldl_getD v.terms (v.univ.map (fun _ => (0 : ℚ))) [] i
      hlen' (by simpa using hi)]
    rw [hz i, foldl_max_eq_maxQ]
    rfl
  refine ⟨(v.terms.foldl findStep (v.univ.map (fun _ => (0 : ℚ)), [])).1,
    (v.terms.foldl findStep (v.univ.map (fun _ => (0 : ℚ)), [])).2,
    by rw [find_crisp_value_of_ne v hne],
    (findStep_foldl_snd v.terms _ []).trans (List.nil_append _),
    h3, ?_⟩
  intro i m hi hmax hm
  rw [h3 i hi, hmax]
  simpa using max_eq_right hm

/-- Claim C1, witness: a two-term variable where only `lo` has a degree; the
aggregated curve agrees with the claimed maximum over exactly the
defined-degree terms, and the unset term contributes no cut. -/
theorem claim_C1_witness :
    ∃ out cuts,
      find_crisp_value ⟨[0, 1], "v", "centroid",
        [⟨"lo", [1, 0], true, some (3/10)⟩, ⟨"hi", [0, 1], true, none⟩],
        false⟩ = .ok (out, cuts) ∧
      cuts = [(⟨"lo", [1, 0], true, some (3/10)⟩ : FuzzyVariableTerm),
        ⟨"hi", [0, 1], true, none⟩].filterMap
          (fun t => t.membership_value.map
            (fun c => (t.label, t.mf.map (fun m => min c m)))) ∧
      (∀ i, i < ([0, 1] : List ℚ).length →
        out.getD i 0 = ((specCutsAt ⟨[0, 1], "v", "centroid",
          [⟨"lo", [1, 0], true, some (3/10)⟩, ⟨"hi", [0, 1], true, none⟩],
          false⟩ i).max?).elim 0 (fun m => max 0 m)) ∧
      (∀ i m, i < ([0, 1] : List ℚ).length →
        (specCutsAt ⟨[0, 1], "v", "centroid",
          [⟨"lo", [1, 0], true, some (3/10)⟩, ⟨"hi", [0, 1], true, none⟩],
          false⟩ i).max? = some m → 0 ≤ m → out.getD i 0 = m) :=
  claim_C1 ⟨[0, 1], "v", "centroid",
    [⟨"lo", [1, 0], true, some (3/10)⟩, ⟨"hi", [0, 1], true, none⟩], false⟩
    (by decide) (by decide)

/-- Claim C1, counterexample to the claim as stated: a curve sitting at the
tolerated negative boundary `0 - 1e-6` passes registration, a crisp write
gives its term the degree `0 - 1e-6`, and the only defined cut at sample 0 is
`0 - 1e-6`; the claimed aggregate (the maximum over exactly the defined-degree
terms) is `0 - 1e-6`, but the code's aggregated curve reads 0 there — the
zeros initialisation floors the maximum at zero. -/
theorem claim_C1_counterexample :
    ∃ out cuts,
      find_crisp_value ((crisp_value_set ((setitem
        (FuzzyVariable.init [0, 1] "n" "centroid") "a"
        (.curve [0 - eps, 0 - eps])).1) 0).1) = .ok (out, cuts) ∧
      out.getD 0 0 = 0 ∧
      (specCutsAt ((crisp_value_set ((setitem
        (FuzzyVariable.init [0, 1] "n" "centroid") "a"
        (.curve [0 - eps, 0 - eps])).1) 0).1) 0).max? = some (0 - eps) ∧
      (0 : ℚ) ≠ 0 - eps :=
  ⟨[0, 0], [("a", [0 - eps, 0 - eps])], by rfl, by rfl, by rfl, by decide⟩
